import Mathlib

/-!
Verification development for the vite font unicode-range plugin
(`src/lib/main.ts`, two variants: a `transform`/inline-rewrite variant and a
`resolveId`/alias variant). JS strings are modelled as `List Char`, JS numbers
as `Nat` (with `Option Nat` where `parseInt` can produce `NaN`), and the host
collaborators (module resolution, file sizes, the external `subset-font`
capability) as an explicit environment record.
-/

/- ===== basic string helpers ===== -/

/-- JS `s.split(sep)` for a one-character separator: the list of chunks
between occurrences of `sep` (always nonempty, chunks may be empty). -/
def splitOnChar (sep : Char) : List Char → List (List Char)
  | [] => [[]]
  | c :: cs =>
    let r := splitOnChar sep cs
    if c == sep then [] :: r
    else
      match r with
      | [] => [[c]]
      | h :: t => (c :: h) :: t

/-- JS `a.split("/").pop() || ""`: the final path segment (empty when the
string ends in `/` or is empty). -/
def lastSegment (a : List Char) : List Char :=
  (splitOnChar '/' a).getLastD []

/-- JS regex `\s` on the ASCII range (space, tab, and line/page separators). -/
def jsWs (c : Char) : Bool :=
  c == ' ' || c == '\t' || c == '\n' || c == '\r' || c == '\x0b' || c == '\x0c'

def trimLeftWs (l : List Char) : List Char := l.dropWhile jsWs

def trimRightWs (l : List Char) : List Char := (l.reverse.dropWhile jsWs).reverse

/-- Helper for `splitCommaWs`: the head chunk keeps its leading whitespace,
every whitespace run adjacent to a comma is consumed, the last chunk keeps
its trailing whitespace. -/
def splitCommaWsAux : List Char → List (List Char) → List (List Char)
  | h, [] => [h]
  | h, h2 :: t => trimRightWs h :: splitCommaWsAux (trimLeftWs h2) t

/-- JS `rangeValue.split(/\s*,\s*/)`: split on commas, consuming the
whitespace adjacent to each comma (outer whitespace of the whole string is
kept, exactly as the regex split behaves). -/
def splitCommaWs (s : List Char) : List (List Char) :=
  match splitOnChar ',' s with
  | [] => []
  | h :: t => splitCommaWsAux h t

/-- JS `String.prototype.toLowerCase` on the ASCII range. -/
def toLowerList (s : List Char) : List Char := s.map Char.toLower

/-- The ECMAScript line terminators (LF, CR, LS, PS) — the characters the
regex metacharacter `.` does *not* match. -/
def isLineTerm (c : Char) : Bool :=
  c == '\n' || c == '\r' || c == '\u2028' || c == '\u2029'

/- ===== character classes and hexadecimal parsing ===== -/

/-- Regex class `\d` (same as `[0-9]`); char codes 48..57. -/
def isDigitCh (c : Char) : Bool := 48 ≤ c.toNat && c.toNat ≤ 57

/-- Regex class `[a-z]`; char codes 97..122. -/
def isLowerAlpha (c : Char) : Bool := 97 ≤ c.toNat && c.toNat ≤ 122

/-- Regex class `[0-9A-Fa-f]`. -/
def isHexDigit (c : Char) : Bool :=
  isDigitCh c || (97 ≤ c.toNat && c.toNat ≤ 102) || (65 ≤ c.toNat && c.toNat ≤ 70)

/-- Regex class `[0-9A-Fa-f?]`. -/
def isHexQ (c : Char) : Bool := isHexDigit c || c == '?'

/-- Value of one hexadecimal digit (either case). -/
def hexVal (c : Char) : Nat :=
  if c.toNat ≤ 57 then c.toNat - 48
  else if c.toNat ≤ 70 then c.toNat - 65 + 10
  else c.toNat - 97 + 10

/-- JS `parseInt(s, 16)`: parse the longest leading run of hex digits;
`none` models the `NaN` produced when that run is empty. (The strings fed
to it here are regex captures over `[0-9A-Fa-f?]` with `?` substituted, or
the empty string, so sign/whitespace/`0x` handling never comes into play.) -/
def parseIntHex (s : List Char) : Option Nat :=
  let ds := s.takeWhile isHexDigit
  if ds.isEmpty then none
  else some (ds.foldl (fun a c => a * 16 + hexVal c) 0)

/- ===== unicode-range parsing (`parseUnicodeRange`) ===== -/

/-- One `{start, end}` record pushed by `parseUnicodeRange`. JS numbers that
may be `NaN` are modelled as `Option Nat` (`none` = `NaN`). `end` is a Lean
keyword, hence the guillemets. -/
structure CPRange where
  start : Option Nat
  «end» : Option Nat
deriving DecidableEq, Repr

/-- First match of regex `U\+(<cls>+)` scanning left to right: the capture
is the maximal run of `cls` characters after the first `U+` that is
followed by at least one such character. -/
def findUPlus (cls : Char → Bool) : List Char → Option (List Char)
  | 'U' :: '+' :: c :: rest =>
    if cls c then some ((c :: rest).takeWhile cls)
    else findUPlus cls ('+' :: c :: rest)
  | _ :: rest => findUPlus cls rest
  | [] => none

/-- First match of regex `U\+([0-9A-Fa-f]+)-([0-9A-Fa-f]+)`: both captures
are maximal hex runs (greedy `+` cannot backtrack into a successful match
here because `-` is not a hex digit). -/
def findRangePair : List Char → Option (List Char × List Char)
  | 'U' :: '+' :: rest =>
    let h1 := rest.takeWhile isHexDigit
    let r1 := rest.dropWhile isHexDigit
    if h1.isEmpty then findRangePair ('+' :: rest)
    else
      match r1 with
      | '-' :: rest2 =>
        let h2 := rest2.takeWhile isHexDigit
        if h2.isEmpty then findRangePair ('+' :: rest) else some (h1, h2)
      | _ => findRangePair ('+' :: rest)
  | _ :: rest => findRangePair rest
  | [] => none

/-- The body of `parseUnicodeRange`'s loop for one comma-separated token:
the three branches of the source — wildcard (`includes("?")`), explicit range
(`includes("-")`), and single code point (with its `|| "0"` default). -/
def parseToken (part : List Char) : List CPRange :=
  if part.contains '?' then
    let pfx := (findUPlus isHexQ part).getD []
    [⟨parseIntHex (pfx.map fun c => if c == '?' then '0' else c),
      parseIntHex (pfx.map fun c => if c == '?' then 'F' else c)⟩]
  else if part.contains '-' then
    match findRangePair part with
    | some (h1, h2) => [⟨parseIntHex h1, parseIntHex h2⟩]
    | none => []
  else
    let cp := (findUPlus isHexDigit part).getD ['0']
    [⟨parseIntHex cp, parseIntHex cp⟩]

/-- `parseUnicodeRange(rangeValue)` from `src/lib/main.ts`. -/
def parseUnicodeRange (rangeValue : List Char) : List CPRange :=
  ((splitCommaWs rangeValue).map parseToken).flatten

/- ===== expansion to a code-point set (`rangStr`) ===== -/

/-- Insertion-ordered de-duplication, as `new Set(v)` iterates. -/
def dedupFirstAux (seen : List Nat) : List Nat → List Nat
  | [] => []
  | x :: xs =>
    if seen.contains x then dedupFirstAux seen xs
    else x :: dedupFirstAux (x :: seen) xs

def dedupFirst (l : List Nat) : List Nat := dedupFirstAux [] l

/-- The loop `for (let i = start; i < end; i++) v.push(i)`: an *exclusive*
upper bound. A `NaN` bound (`none`) makes the loop guard false at once. -/
def rangePoints (r : CPRange) : List Nat :=
  match r.start, r.«end» with
  | some s, some e => List.range' s (e - s)
  | _, _ => []

/-- `rangStr(s)`: the code units handed to `subsetFont`, in order —
`String.fromCharCode(...new Set(v))` de-duplicates in insertion order and
truncates each value to 16 bits. -/
def rangStr (s : List CPRange) : List Nat :=
  (dedupFirst ((s.map rangePoints).flatten)).map (· % 65536)

/- ===== identity normalization (`getFileName`) ===== -/

/-- The capture of `([a-z]+\d?)$` reached through a lazy `.*?`: the longest
suffix made of lowercase letters optionally followed by one final digit
(the lazy prefix makes the engine pick the earliest possible capture
start, i.e. the longest such suffix). `none` when the string does not end
that way, in which case the whole regex fails. -/
def tailCapture (file : List Char) : Option (List Char) :=
  match file.reverse with
  | [] => none
  | c :: rest =>
    if isLowerAlpha c then some (((c :: rest).takeWhile isLowerAlpha).reverse)
    else if isDigitCh c then
      let ls := rest.takeWhile isLowerAlpha
      if ls.isEmpty then none else some (ls.reverse ++ [c])
    else none

/-- `getFileName(a)`: `a.split("/").pop() || ""` followed by
`file.replace(/\..*?([a-z]+\d?)$/, ".$1")`. The capture is the longest
`[a-z]+\d?` suffix (`tailCapture`); `pre` is everything before it. A match
at a dot needs the lazy `.*?` to span from that dot to the capture, and
`.` does not cross line terminators, so the regex matches iff a `.`
occurs in `zone`, the part of `pre` after its last line terminator — the
leftmost such match starts at the *first* dot of `zone` (dots before the
last terminator fail, and no dot can sit inside the capture), and the
whole tail from that dot is replaced by `.` plus the capture. -/
def getFileName (a : List Char) : List Char :=
  let file := lastSegment a
  match tailCapture file with
  | none => file
  | some cap =>
    let pre := file.take (file.length - cap.length)
    let zone := (pre.reverse.takeWhile fun c => !(isLineTerm c)).reverse
    if zone.contains '.' then
      pre.take (pre.length - zone.length) ++ (zone.takeWhile fun c => !(c == '.'))
        ++ '.' :: cap
    else file

/- ===== target format (`path.extname` + `getTargetFormat`) ===== -/

/-- Node `path.extname` (POSIX): the substring of the final path segment
from its last `.` — empty when there is no dot, when the only dot leads the
basename (dot-files), or when the basename is solely dots (`.`/`..`). -/
def extname (fileName : List Char) : List Char :=
  let base := lastSegment fileName
  if base == ['.', '.'] then []
  else
    let after := base.reverse.takeWhile fun c => !(c == '.')
    if after.length == base.length then []
    else if after.length + 1 == base.length then []
    else '.' :: after.reverse

/-- The return type of `getTargetFormat` in the source: note it has no
`eot` or `opentype` member. -/
inductive TargetFormat where
  | woff
  | woff2
  | sfnt
  | truetype
deriving DecidableEq, Repr

/-- `getTargetFormat(fileName)` from `src/lib/main.ts`. -/
def getTargetFormat (fileName : List Char) : TargetFormat :=
  let ext := toLowerList (extname fileName)
  if ext == ".woff".toList then .woff
  else if ext == ".woff2".toList then .woff2
  else if ext == ".sfnt".toList then .sfnt
  else if ext == ".ttf".toList then .truetype
  else .woff2

/-- The default `fontExtensions` filter `/\.(woff2?|ttf|eot|otf)$/i`. -/
def fontExtTest (url : List Char) : Bool :=
  let l := toLowerList url
  [".woff", ".woff2", ".ttf", ".eot", ".otf"].any fun e => e.toList.isSuffixOf l

/- ===== the inline reference rewriter (`code.replace(new RegExp(s, "g"), t)`) ===== -/

/-- One pattern character against one text character. The patterns the
source compiles with `new RegExp(s, "g")` are font URLs, whose only regex
metacharacter is `.` (which matches any character except a line
terminator); every other character matches literally (URLs with further
metacharacters such as `+` or `(` would behave differently and are
outside the inputs exercised here). -/
def charMatch (p c : Char) : Bool := (p == '.' && !(isLineTerm c)) || p == c

/-- Whether the pattern matches at the very start of the text (each pattern
character consumes exactly one text character). -/
def matchesAt : List Char → List Char → Bool
  | [], _ => true
  | _ :: _, [] => false
  | p :: ps, c :: cs => charMatch p c && matchesAt ps cs

/-- Global regex replacement for a nonempty dot-wildcard pattern
`p :: ps`: scan left to right, replace each leftmost non-overlapping match
with `rep`, and continue after it. The counter is the number of already
matched characters still to be skipped (structural recursion on the
text). -/
def replaceGlobalAux (p : Char) (ps rep : List Char) : List Char → Nat → List Char
  | [], _ => []
  | c :: cs, k =>
    match k with
    | Nat.succ k2 => replaceGlobalAux p ps rep cs k2
    | 0 =>
      if charMatch p c && matchesAt ps cs then rep ++ replaceGlobalAux p ps rep cs ps.length
      else c :: replaceGlobalAux p ps rep cs 0

/-- JS `code.replace(new RegExp(s, "g"), t)` for a URL pattern `s`
(the replacement string is inserted literally; the URLs and cache paths
involved contain no `$` escapes). The source never builds the regex from
an empty URL. -/
def replaceGlobal (pat rep text : List Char) : List Char :=
  match pat with
  | [] => text
  | p :: ps => replaceGlobalAux p ps rep text 0

/-- The loop `for (const [s, t] of replaces) code = code.replace(...)`,
in the insertion order of the `replaces` map. -/
def applyReplaces (replaces : List (List Char × List Char)) (code : List Char) : List Char :=
  replaces.foldl (fun acc e => replaceGlobal e.1 e.2 acc) code

/-- Lines 130-135 of the transform variant: when `changed` is set, the
*entire* build-wide `replaces` table is folded over the stylesheet text. -/
def transformRewrite (changed : Bool) (replaces : List (List Char × List Char))
    (code : List Char) : List Char :=
  if changed then applyReplaces replaces code else code

/- ===== host environment and per-font processing ===== -/

/-- Lookup in a JS `Map` represented as an insertion-ordered association
list (keys are never inserted twice by the modelled code). -/
def assocLookup {α : Type} : List (List Char × α) → List Char → Option α
  | [], _ => none
  | e :: m, k => if e.1 == k then some e.2 else assocLookup m k

/-- The host collaborators consumed by the pipeline, as pure oracles:
`resolve` is the bundler's module resolution (`this.resolve`), `fileSize`
the byte length of `fs.promises.readFile`'s result for a resolved path,
`subsetLen` the byte length of what the external `subsetFont` capability
returns for a path, a code-unit list and a target format, and `cacheDir`
the configured cache directory. -/
structure Env where
  resolve : List Char → Option (List Char)
  fileSize : List Char → Nat
  subsetLen : List Char → List Nat → TargetFormat → Nat
  cacheDir : List Char

/-- The mutable state touched by the `resolveId` variant, plus an
instrumentation log `invoked` recording each `subsetFont` call with the
resolved path and the code units passed. `aliasTab` is the host's mutable
alias table (the source's `alias`, a Lean keyword: `{find, replacement}`
pairs, appended), `fontMap` and `results` are the variant's caches. -/
structure StR where
  aliasTab : List (List Char × List Char)
  fontMap : List (List Char × List Char)
  results : List (List Char)
  invoked : List (List Char × List Nat)
deriving DecidableEq, Repr

/-- Lines 300-337 (`resolveId` variant), the body of the per-URL closure,
run to completion without interleaving: extension filter, alias-table
guard, resolution, `fontMap` cache check, subsetting, size gate
(`optimizedFontData.length < fontData.length`), and the `skip` path that
stores nothing. File-system writes (`mkdir`/`writeFile`) have no
observable effect in this model. -/
def processUrlR (env : Env) (st : StR) (url : List Char) (ranges : List CPRange) : StR :=
  if !fontExtTest url then st
  else if st.aliasTab.any (fun a => a.1 == url) then st
  else
    match env.resolve url with
    | none => st
    | some rid =>
      let name := getFileName url
      match assocLookup st.fontMap name with
      | some replacement => { st with aliasTab := st.aliasTab ++ [(url, replacement)] }
      | none =>
        let cps := rangStr ranges
        let subLen := env.subsetLen rid cps (getTargetFormat rid)
        let origLen := env.fileSize rid
        let fileName := env.cacheDir ++ "/subset-".toList ++ name
        let st1 := { st with invoked := st.invoked ++ [(rid, cps)] }
        if subLen < origLen then
          { st1 with
            aliasTab := st1.aliasTab ++ [(url, fileName)]
            fontMap := st1.fontMap ++ [(name, fileName)]
            results := st1.results ++ [name] }
        else st1

/-- The suspension points of the same per-URL closure, for reasoning about
the event-loop interleaving of several concurrent `resolveId` calls: the
code runs synchronously between two `await`s, and every `await`
(`this.resolve`, `readFile`, `subsetFont`, `writeFile`) lets another task
run. -/
inductive RPhase where
  | start
  | resolving
  | reading (rid : List Char)
  | subsetting (rid : List Char)
  | writing (rid : List Char) (fileName : List Char)
  | done
deriving DecidableEq, Repr

/-- One in-flight per-URL closure. -/
structure RTask where
  url : List Char
  ranges : List CPRange
  phase : RPhase
deriving DecidableEq, Repr

/-- One synchronous segment of the per-URL closure (from one suspension
point to the next), against the shared module state:
`start` runs the extension filter and alias-table guard, then suspends in
`this.resolve`; `resolving` resumes with the resolution result, checks the
`fontMap` cache (a hit pushes the alias and finishes), and a miss suspends
in `readFile`; `reading` resumes and calls `subsetFont` (the invocation is
logged here), suspending on its result; `subsetting` resumes with the
sizes, a too-large subset finishes with nothing stored (`skip`), an
accepted one suspends in `writeFile`; `writing` resumes and stores the
`fontMap` entry, the report row and the alias. -/
def stepR (env : Env) (st : StR) (t : RTask) : StR × RTask :=
  match t.phase with
  | .start =>
    if !fontExtTest t.url then (st, { t with phase := .done })
    else if st.aliasTab.any (fun a => a.1 == t.url) then (st, { t with phase := .done })
    else (st, { t with phase := .resolving })
  | .resolving =>
    match env.resolve t.url with
    | none => (st, { t with phase := .done })
    | some rid =>
      let name := getFileName t.url
      match assocLookup st.fontMap name with
      | some replacement =>
        ({ st with aliasTab := st.aliasTab ++ [(t.url, replacement)] }, { t with phase := .done })
      | none => (st, { t with phase := .reading rid })
  | .reading rid =>
    let cps := rangStr t.ranges
    ({ st with invoked := st.invoked ++ [(rid, cps)] }, { t with phase := .subsetting rid })
  | .subsetting rid =>
    let subLen := env.subsetLen rid (rangStr t.ranges) (getTargetFormat rid)
    let origLen := env.fileSize rid
    if subLen < origLen then
      let name := getFileName t.url
      let fileName := env.cacheDir ++ "/subset-".toList ++ name
      (st, { t with phase := .writing rid fileName })
    else (st, { t with phase := .done })
  | .writing _ fileName =>
    let name := getFileName t.url
    ({ st with
        fontMap := st.fontMap ++ [(name, fileName)]
        results := st.results ++ [name]
        aliasTab := st.aliasTab ++ [(t.url, fileName)] },
     { t with phase := .done })
  | .done => (st, t)

/-- Run a list of in-flight tasks under an explicit cooperative schedule
(each entry picks which task runs its next synchronous segment). -/
def runSched (env : Env) (st : StR) (ts : List RTask) : List Nat → StR × List RTask
  | [] => (st, ts)
  | i :: rest =>
    match ts[i]? with
    | none => runSched env st ts rest
    | some t =>
      let p := stepR env st t
      runSched env p.1 (ts.set i p.2) rest

/- ===== the transform variant ===== -/

/-- A cached `EmittedAsset` of the transform variant: `fileName` is
`deleted` (`none`) when the subset was not accepted; `sourceLen` stands
for the subset bytes. -/
structure Asset where
  name : List Char
  fileName : Option (List Char)
  sourceLen : Nat
deriving DecidableEq, Repr

/-- The module-level mutable state of the transform variant
(`assetCache`, `replaces`, `results` are declared at module scope in the
source), plus the `invoked` instrumentation log of `subsetFont` calls. -/
structure StT where
  assetCache : List (List Char × Asset)
  replaces : List (List Char × List Char)
  results : List (List Char)
  invoked : List (List Char × List Nat)
deriving DecidableEq, Repr

/-- Lines 75-125 (transform variant), the body of the per-URL closure:
extension filter, `assetCache` check, resolution, the per-plugin-instance
`fontSet` guard, subsetting, the `info.after < info.before` gate (the
rejected branch `delete emitAsset.fileName`), and the final
`emitAsset && emitAsset.fileName` check that sets `changed`. Returns the
new module state, the new `fontSet`, and this URL's contribution to
`changed`. Asset emission (`this.emitFile`) has no observable effect in
this model. -/
def processUrlT (env : Env) (st : StT) (fontSet : List (List Char))
    (url : List Char) (ranges : List CPRange) : StT × List (List Char) × Bool :=
  if !fontExtTest url then (st, fontSet, false)
  else
    match assocLookup st.assetCache url with
    | some a => (st, fontSet, a.fileName.isSome)
    | none =>
      match env.resolve url with
      | none => (st, fontSet, false)
      | some rid =>
        let name := getFileName url
        if fontSet.contains name then (st, fontSet, false)
        else
          let fontSet1 := fontSet ++ [name]
          let before := env.fileSize rid
          let cps := rangStr ranges
          let after := env.subsetLen rid cps (getTargetFormat rid)
          let st1 := { st with invoked := st.invoked ++ [(rid, cps)] }
          let fileName := env.cacheDir ++ "/font-subset/".toList ++ name
          if after < before then
            ({ st1 with
                replaces := st1.replaces ++ [(url, fileName)]
                results := st1.results ++ [name]
                assetCache := st1.assetCache ++ [(url, ⟨name, some fileName, after⟩)] },
             fontSet1, true)
          else
            ({ st1 with assetCache := st1.assetCache ++ [(url, ⟨name, none, after⟩)] },
             fontSet1, false)

/-- Sequentially process a build's font-face URLs (one admissible schedule
of the fan-out in `transform`), threading the module state and the
per-plugin `fontSet`. -/
def runDeclsT (env : Env) (st : StT) (fontSet : List (List Char)) :
    List (List Char × List CPRange) → StT × List (List Char)
  | [] => (st, fontSet)
  | (u, r) :: rest =>
    let p := processUrlT env st fontSet u r
    runDeclsT env p.1 p.2.1 rest

/-- One plugin invocation (one build) of the transform variant: the
factory creates a fresh `fontSet`, while `assetCache`/`replaces`/`results`
live at module scope and are whatever the previous invocation left
behind. -/
def runBuildT (env : Env) (st : StT) (decls : List (List Char × List CPRange)) : StT :=
  (runDeclsT env st [] decls).1

/-- A concrete host used by closed evaluations: every URL resolves to
itself, originals are 100 bytes, subsets 10 bytes. -/
def envA : Env := ⟨fun u => some u, fun _ => 100, fun _ _ _ => 10, "/c".toList⟩

/-- A concrete host whose subsets are exactly as large as the originals. -/
def envB : Env := ⟨fun u => some u, fun _ => 100, fun _ _ _ => 100, "/c".toList⟩

/- ===== general lemmas about the helpers ===== -/

theorem takeWhile_all_append {α : Type} (p : α → Bool) (l r : List α) (x : α)
    (hl : ∀ c ∈ l, p c = true) (hx : p x = false) :
    (l ++ x :: r).takeWhile p = l := by
  induction l with
  | nil => simp [List.takeWhile_cons, hx]
  | cons a l ih =>
    have ha : p a = true := hl a (by simp)
    simp [List.takeWhile_cons, ha, ih fun c hc => hl c (by simp [hc])]

theorem takeWhile_all {α : Type} (p : α → Bool) (l : List α)
    (h : ∀ c ∈ l, p c = true) : l.takeWhile p = l := by
  induction l with
  | nil => rfl
  | cons a l ih =>
    have ha : p a = true := h a (by simp)
    simp [List.takeWhile_cons, ha, ih fun c hc => h c (by simp [hc])]

theorem splitOnChar_eq_single {sep : Char} :
    ∀ l : List Char, (∀ c ∈ l, (c == sep) = false) → splitOnChar sep l = [l] := by
  intro l h
  induction l with
  | nil => rfl
  | cons c cs ih =>
    have hc := h c (by simp)
    simp [splitOnChar, hc, ih fun d hd => h d (by simp [hd])]

theorem lastSegment_of_no_slash (l : List Char) (h : ∀ c ∈ l, (c == '/') = false) :
    lastSegment l = l := by
  simp [lastSegment, splitOnChar_eq_single l h]

theorem contains_mid (x y : List Char) (c : Char) : (x ++ c :: y).contains c = true := by
  induction x with
  | nil => simp [List.contains_cons]
  | cons a x ih => simp [List.contains_cons, ih]

theorem assocLookup_append_right {α : Type} (m1 m2 : List (List Char × α)) (k : List Char)
    (h : assocLookup m1 k = none) : assocLookup (m1 ++ m2) k = assocLookup m2 k := by
  induction m1 with
  | nil => rfl
  | cons e m1 ih =>
    simp only [List.cons_append, assocLookup] at h ⊢
    cases he : e.1 == k with
    | true => rw [he] at h; simp at h
    | false =>
      rw [he] at h
      simp only [Bool.false_eq_true, if_false] at h ⊢
      exact ih h

theorem assocLookup_append_self {α : Type} (m : List (List Char × α)) (k : List Char) (v : α)
    (h : assocLookup m k = none) : assocLookup (m ++ [(k, v)]) k = some v := by
  rw [assocLookup_append_right m _ k h]
  simp [assocLookup]

theorem lowerAlpha_ne_dot {c : Char} (h : isLowerAlpha c = true) : (c == '.') = false := by
  rw [beq_eq_false_iff_ne]
  rintro rfl
  exact absurd h (by decide)

theorem lowerAlpha_ne_slash {c : Char} (h : isLowerAlpha c = true) : (c == '/') = false := by
  rw [beq_eq_false_iff_ne]
  rintro rfl
  exact absurd h (by decide)

theorem digit_ne_dot {c : Char} (h : isDigitCh c = true) : (c == '.') = false := by
  rw [beq_eq_false_iff_ne]
  rintro rfl
  exact absurd h (by decide)

theorem digit_ne_slash {c : Char} (h : isDigitCh c = true) : (c == '/') = false := by
  rw [beq_eq_false_iff_ne]
  rintro rfl
  exact absurd h (by decide)

theorem digit_not_lower {c : Char} (h : isDigitCh c = true) : isLowerAlpha c = false := by
  cases hb : isLowerAlpha c with
  | false => rfl
  | true =>
    exfalso
    simp [isDigitCh] at h
    simp [isLowerAlpha] at hb
    omega

/- ===== path characterizations of the per-URL processing ===== -/

theorem processUrlR_alias_guard (env : Env) (st : StR) (url : List Char) (ranges : List CPRange)
    (ha : st.aliasTab.any (fun a => a.1 == url) = true) :
    processUrlR env st url ranges = st := by
  unfold processUrlR
  cases hx : fontExtTest url with
  | false => simp
  | true => simp [ha]

theorem processUrlR_cached (env : Env) (st : StR) (url : List Char) (ranges : List CPRange)
    (repl : List Char)
    (hx : fontExtTest url = true)
    (ha : st.aliasTab.any (fun a => a.1 == url) = false)
    (hr : env.resolve url = some rid)
    (hm : assocLookup st.fontMap (getFileName url) = some repl) :
    processUrlR env st url ranges = { st with aliasTab := st.aliasTab ++ [(url, repl)] } := by
  unfold processUrlR
  simp [hx, ha, hr, hm]

theorem processUrlR_fresh_accept (env : Env) (st : StR) (url rid : List Char)
    (ranges : List CPRange)
    (hx : fontExtTest url = true)
    (ha : st.aliasTab.any (fun a => a.1 == url) = false)
    (hr : env.resolve url = some rid)
    (hm : assocLookup st.fontMap (getFileName url) = none)
    (hlt : env.subsetLen rid (rangStr ranges) (getTargetFormat rid) < env.fileSize rid) :
    processUrlR env st url ranges =
      { aliasTab := st.aliasTab ++ [(url, env.cacheDir ++ "/subset-".toList ++ getFileName url)]
        fontMap := st.fontMap ++ [(getFileName url, env.cacheDir ++ "/subset-".toList ++ getFileName url)]
        results := st.results ++ [getFileName url]
        invoked := st.invoked ++ [(rid, rangStr ranges)] } := by
  unfold processUrlR
  simp [hx, ha, hr, hm, hlt]

theorem processUrlR_fresh_reject (env : Env) (st : StR) (url rid : List Char)
    (ranges : List CPRange)
    (hx : fontExtTest url = true)
    (ha : st.aliasTab.any (fun a => a.1 == url) = false)
    (hr : env.resolve url = some rid)
    (hm : assocLookup st.fontMap (getFileName url) = none)
    (hge : env.fileSize rid ≤ env.subsetLen rid (rangStr ranges) (getTargetFormat rid)) :
    processUrlR env st url ranges = { st with invoked := st.invoked ++ [(rid, rangStr ranges)] } := by
  unfold processUrlR
  simp [hx, ha, hr, hm, Nat.not_lt.mpr hge]

theorem processUrlT_cached (env : Env) (st : StT) (fontSet : List (List Char))
    (url : List Char) (ranges : List CPRange) (a : Asset)
    (hx : fontExtTest url = true)
    (hc : assocLookup st.assetCache url = some a) :
    processUrlT env st fontSet url ranges = (st, fontSet, a.fileName.isSome) := by
  unfold processUrlT
  simp [hx, hc]

theorem processUrlT_fontSet_skip (env : Env) (st : StT) (fontSet : List (List Char))
    (url rid : List Char) (ranges : List CPRange)
    (hx : fontExtTest url = true)
    (hc : assocLookup st.assetCache url = none)
    (hr : env.resolve url = some rid)
    (hfs : fontSet.contains (getFileName url) = true) :
    processUrlT env st fontSet url ranges = (st, fontSet, false) := by
  have hm : getFileName url ∈ fontSet := by simpa using hfs
  unfold processUrlT
  simp [hx, hc, hr, hm]

theorem processUrlT_fresh_reject (env : Env) (st : StT) (fontSet : List (List Char))
    (url rid : List Char) (ranges : List CPRange)
    (hx : fontExtTest url = true)
    (hc : assocLookup st.assetCache url = none)
    (hr : env.resolve url = some rid)
    (hfs : fontSet.contains (getFileName url) = false)
    (hge : env.fileSize rid ≤ env.subsetLen rid (rangStr ranges) (getTargetFormat rid)) :
    processUrlT env st fontSet url ranges =
      ({ st with
          invoked := st.invoked ++ [(rid, rangStr ranges)]
          assetCache := st.assetCache ++
            [(url, ⟨getFileName url, none,
                    env.subsetLen rid (rangStr ranges) (getTargetFormat rid)⟩)] },
       fontSet ++ [getFileName url], false) := by
  have hm : getFileName url ∉ fontSet := by simpa using hfs
  unfold processUrlT
  simp [hx, hc, hr, hm, Nat.not_lt.mpr hge]

/- ===== claim theorems ===== -/

/-- Claim C1 (code bug): the code-point set built by `rangStr` is supposed
to contain every code point `c` with `start ≤ c ≤ end` of every parsed
range, the end bound included. The expansion loop `for (i = start;
i < end; i++)` is exclusive, so for the single-code-point token `U+41`
(where `start = end = 0x41`) the set handed to `subsetFont` is *empty*,
and for `U+0030-0039` the end code point `0x39` is missing while `0x30`
is present. -/
theorem rangStr_drops_inclusive_end :
    parseUnicodeRange ("U+41".toList) = [⟨some 65, some 65⟩]
    ∧ rangStr (parseUnicodeRange ("U+41".toList)) = []
    ∧ (rangStr (parseUnicodeRange ("U+0030-0039".toList))).contains 0x30 = true
    ∧ (rangStr (parseUnicodeRange ("U+0030-0039".toList))).contains 0x39 = false := by
  decide

/-- Claim C2 (code bug): two concurrent `resolveId` transforms that reach
the same font URL before either finishes both miss the `fontMap` cache
(the check-then-set pattern memoizes only the finished result, not the
in-flight computation), so under the alternating event-loop schedule the
external `subsetFont` capability is invoked twice for one identity —
while the fully sequential schedule of the same two tasks invokes it
once. -/
theorem subset_invoked_twice_under_interleaving :
    (runSched envA ⟨[], [], [], []⟩
      [⟨"font.woff2".toList, [⟨some 65, some 67⟩], RPhase.start⟩,
       ⟨"font.woff2".toList, [⟨some 65, some 67⟩], RPhase.start⟩]
      [0, 1, 0, 1, 0, 1, 0, 1, 0, 1]).1.invoked.length = 2
    ∧ (runSched envA ⟨[], [], [], []⟩
      [⟨"font.woff2".toList, [⟨some 65, some 67⟩], RPhase.start⟩,
       ⟨"font.woff2".toList, [⟨some 65, some 67⟩], RPhase.start⟩]
      [0, 0, 0, 0, 0, 1]).1.invoked.length = 1 := by
  decide

/-- Claim C3, counterexample: in the transform variant, a second
declaration whose URL differs from the first but normalizes to the same
identity (`fonts/font.abc.woff2` vs `fonts/font.def.woff2`, both
`font.woff2`) is *not* rewritten to the first subset: the `fontSet` guard
skips it before any cache entry or replacement is created, `changed`
stays false for it, and its reference survives the rewrite untouched. -/
theorem transform_skips_second_hashed_url :
    (let p1 := processUrlT envA ⟨[], [], [], []⟩ []
        ("fonts/font.abc.woff2".toList) [⟨some 65, some 67⟩]
     let p2 := processUrlT envA p1.1 p1.2.1
        ("fonts/font.def.woff2".toList) [⟨some 80, some 85⟩]
     getFileName ("fonts/font.abc.woff2".toList) = getFileName ("fonts/font.def.woff2".toList)
     ∧ p2.2.2 = false
     ∧ assocLookup p2.1.replaces ("fonts/font.def.woff2".toList) = none
     ∧ transformRewrite true p2.1.replaces ("url(fonts/font.def.woff2)".toList)
         = "url(fonts/font.def.woff2)".toList) := by
  decide

/-- Claim C5, counterexample: the inline rewrite step is not idempotent.
With the replacement table the transform variant itself builds for the
URL `font.woff2` (whose target `/c/font-subset/font.woff2` contains the
original URL), applying the rewrite a second time prepends the subset
directory again. -/
theorem inline_rewrite_not_idempotent :
    (let st := runBuildT envA ⟨[], [], [], []⟩ [("font.woff2".toList, [⟨some 65, some 67⟩])]
     transformRewrite true st.replaces
        (transformRewrite true st.replaces ("url(font.woff2)".toList))
       ≠ transformRewrite true st.replaces ("url(font.woff2)".toList)) := by
  decide

/-- Claim C6, counterexample: `getTargetFormat` maps `.eot` and `.otf` to
`woff2` — exactly as it maps a wholly unrecognized extension — rather
than to the claimed `eot` and `opentype`/`sfnt` targets (the function's
return type has no such members at all). -/
theorem eot_otf_not_distinct_formats :
    getTargetFormat ("font.eot".toList) = TargetFormat.woff2
    ∧ getTargetFormat ("font.otf".toList) = TargetFormat.woff2
    ∧ getTargetFormat ("font.xyz".toList) = TargetFormat.woff2 := by
  decide

/-- Claim C7, counterexample: `getFileName` does not normalize away query
strings or hash fragments — the same URL with a `?v=ab` query or an
`#iefix` fragment yields a different identity than the bare URL. -/
theorem getFileName_sensitive_to_query_hash :
    getFileName ("font.woff2?v=ab".toList) ≠ getFileName ("font.woff2".toList)
    ∧ getFileName ("font.woff2#iefix".toList) ≠ getFileName ("font.woff2".toList) := by
  decide

/-- Claim C8, counterexample: a malformed token among well-formed ones is
*not* dropped: `hello` (no `?`, no `-`, no `U+hex`) falls into the single
code point branch whose `|| "0"` default contributes the range
`{start: 0, end: 0}`, and a malformed token containing `?` contributes a
`NaN` range. -/
theorem malformed_token_not_dropped :
    parseUnicodeRange ("U+41,hello".toList) = [⟨some 65, some 65⟩, ⟨some 0, some 0⟩]
    ∧ parseUnicodeRange ("x?".toList) = [⟨none, none⟩] := by
  decide

/-- Claim C9 (code bug): `assetCache`, `replaces` and `results` are
module-level constants, so a second plugin invocation in the same process
starts from the first build's state, not from empty state: re-processing
the same declaration performs no new `subsetFont` invocation (the first
build's cache entry is observed) and the second build's end-of-build
report still contains the row pushed by the first build. -/
theorem module_caches_leak_across_builds :
    (let st1 := runBuildT envA ⟨[], [], [], []⟩ [("a.woff2".toList, [⟨some 65, some 67⟩])]
     let st2 := runBuildT envA st1 [("a.woff2".toList, [⟨some 65, some 67⟩])]
     st1.invoked.length = 1
     ∧ st2.invoked = st1.invoked
     ∧ st1.results = ["a.woff2".toList]
     ∧ st2.results = st1.results) := by
  decide

/-- Claim C10 (confirmed): when `changed` is set, the transform folds the
*entire* build-wide `replaces` table over the stylesheet text — splitting
the table anywhere shows every entry, including those appended while
processing other stylesheets, is applied; concretely, transforming a
stylesheet that declares only `b.woff2` also rewrites its occurrence of
`a.woff2`, whose entry was created by another stylesheet's build step. -/
theorem transform_applies_whole_replacement_table :
    (∀ (r1 r2 : List (List Char × List Char)) (code : List Char),
        transformRewrite true (r1 ++ r2) code = applyReplaces r2 (applyReplaces r1 code))
    ∧ (let stA := runBuildT envA ⟨[], [], [], []⟩ [("a.woff2".toList, [⟨some 65, some 67⟩])]
       let p := processUrlT envA stA [] ("b.woff2".toList) [⟨some 70, some 75⟩]
       transformRewrite p.2.2 p.1.replaces ("url(b.woff2) url(a.woff2)".toList)
         = "url(/c/font-subset/b.woff2) url(/c/font-subset/a.woff2)".toList) := by
  constructor
  · intro r1 r2 code
    simp [transformRewrite, applyReplaces, List.foldl_append]
  · decide

/-- Claim C3, amended: for two declarations resolving to the same
identity, the subset is computed once, from the first declaration's
ranges; the cached entry is not altered by the second declaration. In the
`resolveId` variant the second URL is aliased to the same subset output;
in the transform variant a second declaration with the *same* URL
observes the cached entry (and nothing is altered), while one with a
*different* URL normalizing to the same identity is skipped outright —
no cache entry, no replacement, reference left original. -/
theorem first_writer_wins_cache
    (env : Env) (st0 : StR) (u1 u2 p1 p2 : List Char) (r1 r2 : List CPRange)
    (hx1 : fontExtTest u1 = true) (hx2 : fontExtTest u2 = true)
    (ha1 : st0.aliasTab.any (fun a => a.1 == u1) = false)
    (ha2 : st0.aliasTab.any (fun a => a.1 == u2) = false)
    (hne : (u1 == u2) = false)
    (hr1 : env.resolve u1 = some p1) (hr2 : env.resolve u2 = some p2)
    (hnm : getFileName u2 = getFileName u1)
    (hmap : assocLookup st0.fontMap (getFileName u1) = none)
    (hacc : env.subsetLen p1 (rangStr r1) (getTargetFormat p1) < env.fileSize p1)
    (stT : StT) (fs : List (List Char)) (u3 u4 p4 : List Char) (r3 r4 : List CPRange) (a : Asset)
    (hx3 : fontExtTest u3 = true)
    (hc3 : assocLookup stT.assetCache u3 = some a)
    (hx4 : fontExtTest u4 = true)
    (hc4 : assocLookup stT.assetCache u4 = none)
    (hr4 : env.resolve u4 = some p4)
    (hfs4 : fs.contains (getFileName u4) = true) :
    ((processUrlR env (processUrlR env st0 u1 r1) u2 r2).invoked
        = st0.invoked ++ [(p1, rangStr r1)]
     ∧ (processUrlR env (processUrlR env st0 u1 r1) u2 r2).fontMap
        = (processUrlR env st0 u1 r1).fontMap
     ∧ (processUrlR env (processUrlR env st0 u1 r1) u2 r2).aliasTab
        = (processUrlR env st0 u1 r1).aliasTab
          ++ [(u2, env.cacheDir ++ "/subset-".toList ++ getFileName u1)])
    ∧ processUrlT env stT fs u3 r3 = (stT, fs, a.fileName.isSome)
    ∧ processUrlT env stT fs u4 r4 = (stT, fs, false) := by
  have e1 := processUrlR_fresh_accept env st0 u1 p1 r1 hx1 ha1 hr1 hmap hacc
  have ha2b : (processUrlR env st0 u1 r1).aliasTab.any (fun a => a.1 == u2) = false := by
    rw [e1]
    simp [List.any_append, ha2, hne]
  have hm2 : assocLookup (processUrlR env st0 u1 r1).fontMap (getFileName u2)
      = some (env.cacheDir ++ "/subset-".toList ++ getFileName u1) := by
    rw [e1, hnm]
    exact assocLookup_append_self _ _ _ hmap
  have e2 := processUrlR_cached env (processUrlR env st0 u1 r1) u2 r2
    (env.cacheDir ++ "/subset-".toList ++ getFileName u1) hx2 ha2b hr2 hm2
  refine ⟨⟨?_, ?_, ?_⟩, ?_, ?_⟩
  · rw [e2, e1]
  · rw [e2]
  · rw [e2]
  · exact processUrlT_cached env stT fs u3 r3 a hx3 hc3
  · exact processUrlT_fontSet_skip env stT fs u4 p4 r4 hx4 hc4 hr4 hfs4

/-- Witness for the first-writer-wins theorem: two URLs with different
hash paths but the same normalized identity, plus a cached and a skipped
transform-variant URL, at a concrete host. -/
theorem first_writer_wins_cache_witness :
    ((processUrlR envA (processUrlR envA ⟨[], [], [], []⟩ ("a/font.woff2".toList)
        [⟨some 65, some 67⟩]) ("b/font.woff2".toList) [⟨some 80, some 85⟩]).invoked
        = [] ++ [("a/font.woff2".toList, rangStr [⟨some 65, some 67⟩])]
     ∧ (processUrlR envA (processUrlR envA ⟨[], [], [], []⟩ ("a/font.woff2".toList)
        [⟨some 65, some 67⟩]) ("b/font.woff2".toList) [⟨some 80, some 85⟩]).fontMap
        = (processUrlR envA ⟨[], [], [], []⟩ ("a/font.woff2".toList) [⟨some 65, some 67⟩]).fontMap
     ∧ (processUrlR envA (processUrlR envA ⟨[], [], [], []⟩ ("a/font.woff2".toList)
        [⟨some 65, some 67⟩]) ("b/font.woff2".toList) [⟨some 80, some 85⟩]).aliasTab
        = (processUrlR envA ⟨[], [], [], []⟩ ("a/font.woff2".toList) [⟨some 65, some 67⟩]).aliasTab
          ++ [("b/font.woff2".toList,
               envA.cacheDir ++ "/subset-".toList ++ getFileName ("a/font.woff2".toList))])
    ∧ processUrlT envA
        ⟨[(("x.woff2".toList), ⟨"x.woff2".toList, some ("/c/font-subset/x.woff2".toList), 10⟩)],
         [], [], []⟩ ["y.woff2".toList] ("x.woff2".toList) [⟨some 65, some 67⟩]
        = (⟨[(("x.woff2".toList), ⟨"x.woff2".toList, some ("/c/font-subset/x.woff2".toList), 10⟩)],
            [], [], []⟩, ["y.woff2".toList],
           (Asset.mk ("x.woff2".toList) (some ("/c/font-subset/x.woff2".toList)) 10).fileName.isSome)
    ∧ processUrlT envA
        ⟨[(("x.woff2".toList), ⟨"x.woff2".toList, some ("/c/font-subset/x.woff2".toList), 10⟩)],
         [], [], []⟩ ["y.woff2".toList] ("y.woff2".toList) [⟨some 80, some 85⟩]
        = (⟨[(("x.woff2".toList), ⟨"x.woff2".toList, some ("/c/font-subset/x.woff2".toList), 10⟩)],
            [], [], []⟩, ["y.woff2".toList], false) :=
  first_writer_wins_cache envA ⟨[], [], [], []⟩ ("a/font.woff2".toList) ("b/font.woff2".toList)
    ("a/font.woff2".toList) ("b/font.woff2".toList) [⟨some 65, some 67⟩] [⟨some 80, some 85⟩]
    (by decide) (by decide) (by decide) (by decide) (by decide) (by decide) (by decide)
    (by decide) (by decide) (by decide)
    ⟨[(("x.woff2".toList), ⟨"x.woff2".toList, some ("/c/font-subset/x.woff2".toList), 10⟩)],
     [], [], []⟩ ["y.woff2".toList] ("x.woff2".toList) ("y.woff2".toList) ("y.woff2".toList)
    [⟨some 65, some 67⟩] [⟨some 80, some 85⟩]
    (Asset.mk ("x.woff2".toList) (some ("/c/font-subset/x.woff2".toList)) 10)
    (by decide) (by decide) (by decide) (by decide) (by decide) (by decide)

/-- Claim C4 (confirmed): when the computed subset is at least as large as
the original, nothing is accepted — in the transform variant the
`replaces` table, the report and `changed` are untouched and the cached
entry carries no output location (`fileName` deleted); in the `resolveId`
variant the alias table, the `fontMap` cache and the report are untouched
— so the original reference survives in the build output. -/
theorem size_regression_rejected
    (env : Env) (stT : StT) (fs : List (List Char)) (stR : StR)
    (u : List Char) (r : List CPRange) (p : List Char)
    (hx : fontExtTest u = true)
    (hres : env.resolve u = some p)
    (hbig : env.fileSize p ≤ env.subsetLen p (rangStr r) (getTargetFormat p))
    (hcT : assocLookup stT.assetCache u = none)
    (hfs : fs.contains (getFileName u) = false)
    (haR : stR.aliasTab.any (fun a => a.1 == u) = false)
    (hmR : assocLookup stR.fontMap (getFileName u) = none) :
    ((processUrlT env stT fs u r).1.replaces = stT.replaces
     ∧ (processUrlT env stT fs u r).1.results = stT.results
     ∧ (processUrlT env stT fs u r).2.2 = false
     ∧ assocLookup (processUrlT env stT fs u r).1.assetCache u
        = some ⟨getFileName u, none, env.subsetLen p (rangStr r) (getTargetFormat p)⟩)
    ∧ ((processUrlR env stR u r).aliasTab = stR.aliasTab
       ∧ (processUrlR env stR u r).fontMap = stR.fontMap
       ∧ (processUrlR env stR u r).results = stR.results) := by
  have eT := processUrlT_fresh_reject env stT fs u p r hx hcT hres hfs hbig
  have eR := processUrlR_fresh_reject env stR u p r hx haR hres hmR hbig
  refine ⟨⟨?_, ?_, ?_, ?_⟩, ?_, ?_, ?_⟩
  · rw [eT]
  · rw [eT]
  · rw [eT]
  · rw [eT]
    exact assocLookup_append_self _ _ _ hcT
  · rw [eR]
  · rw [eR]
  · rw [eR]

/-- Witness for the size-regression gate at a host whose subsets are
exactly as large as the originals. -/
theorem size_regression_rejected_witness :
    ((processUrlT envB ⟨[], [], [], []⟩ [] ("a.woff2".toList) [⟨some 65, some 67⟩]).1.replaces = []
     ∧ (processUrlT envB ⟨[], [], [], []⟩ [] ("a.woff2".toList) [⟨some 65, some 67⟩]).1.results = []
     ∧ (processUrlT envB ⟨[], [], [], []⟩ [] ("a.woff2".toList) [⟨some 65, some 67⟩]).2.2 = false
     ∧ assocLookup (processUrlT envB ⟨[], [], [], []⟩ [] ("a.woff2".toList)
          [⟨some 65, some 67⟩]).1.assetCache ("a.woff2".toList)
        = some ⟨getFileName ("a.woff2".toList), none,
                envB.subsetLen ("a.woff2".toList) (rangStr [⟨some 65, some 67⟩])
                  (getTargetFormat ("a.woff2".toList))⟩)
    ∧ ((processUrlR envB ⟨[], [], [], []⟩ ("a.woff2".toList) [⟨some 65, some 67⟩]).aliasTab = []
       ∧ (processUrlR envB ⟨[], [], [], []⟩ ("a.woff2".toList) [⟨some 65, some 67⟩]).fontMap = []
       ∧ (processUrlR envB ⟨[], [], [], []⟩ ("a.woff2".toList) [⟨some 65, some 67⟩]).results = []) :=
  size_regression_rejected envB ⟨[], [], [], []⟩ [] ⟨[], [], [], []⟩
    ("a.woff2".toList) [⟨some 65, some 67⟩] ("a.woff2".toList)
    (by decide) (by decide) (by decide) (by decide) (by decide) (by decide) (by decide)

/-- Claim C5, amended: re-resolving a URL that already has an alias entry
leaves the state unchanged (the alias-table guard makes the alias
strategy idempotent), but the inline substitution step is *not*
idempotent: with the replacement table the transform variant builds for a
bare-filename URL, whose target contains the original URL, a second
application of the rewrite prepends the subset directory again. -/
theorem alias_guard_idempotent_inline_rewrite_not :
    (∀ (env : Env) (st : StR) (u : List Char) (r : List CPRange),
        st.aliasTab.any (fun a => a.1 == u) = true → processUrlR env st u r = st)
    ∧ (let st := runBuildT envA ⟨[], [], [], []⟩ [("font.woff2".toList, [⟨some 65, some 67⟩])]
       transformRewrite true st.replaces
          (transformRewrite true st.replaces ("url(font.woff2)".toList))
         ≠ transformRewrite true st.replaces ("url(font.woff2)".toList)) := by
  constructor
  · intro env st u r h
    exact processUrlR_alias_guard env st u r h
  · decide

/-- Witness for the alias-guard half of the idempotence theorem: a URL
that already has an alias entry is left alone. -/
theorem alias_guard_idempotent_witness :
    processUrlR envA ⟨[("u.woff2".toList, "z".toList)], [], [], []⟩ ("u.woff2".toList) []
      = ⟨[("u.woff2".toList, "z".toList)], [], [], []⟩ :=
  alias_guard_idempotent_inline_rewrite_not.1 envA
    ⟨[("u.woff2".toList, "z".toList)], [], [], []⟩ ("u.woff2".toList) [] (by decide)

/-- Claim C8, amended: a malformed token containing `-` (and no `?`) is
dropped; any other malformed token is not dropped but contributes a
default record — `{start: 0, end: 0}` when it contains no `?` (the
`|| "0"` fallback), a `NaN` range when it contains `?` — and no error is
raised in any case (the parser is total). -/
theorem malformed_token_fate (t : List Char) :
    (t.contains '?' = false → t.contains '-' = true → findRangePair t = none →
      parseToken t = [])
    ∧ (t.contains '?' = false → t.contains '-' = false → findUPlus isHexDigit t = none →
      parseToken t = [⟨some 0, some 0⟩])
    ∧ (t.contains '?' = true → findUPlus isHexQ t = none →
      parseToken t = [⟨none, none⟩]) := by
  refine ⟨?_, ?_, ?_⟩
  · intro h1 h2 h3
    have h1m : ¬ ('?' ∈ t) := by simpa using h1
    have h2m : '-' ∈ t := by simpa using h2
    simp [parseToken, h1m, h2m, h3]
  · intro h1 h2 h3
    have h1m : ¬ ('?' ∈ t) := by simpa using h1
    have h2m : ¬ ('-' ∈ t) := by simpa using h2
    have hv : parseToken t = [⟨parseIntHex ['0'], parseIntHex ['0']⟩] := by
      simp [parseToken, h1m, h2m, h3]
    rw [hv]
    decide
  · intro h1 h2
    have h1m : '?' ∈ t := by simpa using h1
    have hv : parseToken t = [⟨parseIntHex [], parseIntHex []⟩] := by
      simp [parseToken, h1m, h2]
    rw [hv]
    decide

/-- Witness for the malformed-token theorem at the three kinds of
malformed tokens. -/
theorem malformed_token_fate_witness :
    parseToken ("U+41-".toList) = []
    ∧ parseToken ("hello".toList) = [⟨some 0, some 0⟩]
    ∧ parseToken ("x?".toList) = [⟨none, none⟩] :=
  ⟨(malformed_token_fate _).1 (by decide) (by decide) (by decide),
   (malformed_token_fate _).2.1 (by decide) (by decide) (by decide),
   (malformed_token_fate _).2.2 (by decide) (by decide)⟩

theorem cons_eq_of_beq_true {c : Char} {a b : List Char} (h : (c :: a == c :: b) = true) :
    a = b := by
  have := beq_iff_eq.mp h
  injection this

theorem extname_of_stem_ext (p e : List Char) (hp : p ≠ [])
    (hps : ∀ c ∈ p, (c == '/') = false)
    (he : e ≠ []) (hed : ∀ c ∈ e, (c == '.') = false)
    (hes : ∀ c ∈ e, (c == '/') = false) :
    extname (p ++ '.' :: e) = '.' :: e := by
  have hallS : ∀ c ∈ p ++ '.' :: e, (c == '/') = false := by
    intro c hc
    rcases List.mem_append.mp hc with h | h
    · exact hps c h
    · rcases List.mem_cons.mp h with rfl | h
      · decide
      · exact hes c h
  have hseg : lastSegment (p ++ '.' :: e) = p ++ '.' :: e := lastSegment_of_no_slash _ hallS
  have hlenp : 1 ≤ p.length := List.length_pos.mpr hp
  have hlene : 1 ≤ e.length := List.length_pos.mpr he
  have hne2 : ((p ++ '.' :: e) == ['.', '.']) = false := by
    rw [beq_eq_false_iff_ne]
    intro hEq
    have hlen := congrArg List.length hEq
    rw [List.length_append, List.length_cons] at hlen
    simp only [List.length_cons, List.length_nil] at hlen
    omega
  have hrev : (p ++ '.' :: e).reverse = e.reverse ++ '.' :: p.reverse := by
    simp
  have htw : ((p ++ '.' :: e).reverse.takeWhile fun c => !(c == '.')) = e.reverse := by
    rw [hrev]
    exact takeWhile_all_append _ _ _ _
      (fun c hc => by simp [hed c (List.mem_reverse.mp hc)]) (by decide)
  have l1 : (e.reverse.length == (p ++ '.' :: e).length) = false := by
    rw [beq_eq_false_iff_ne]
    intro hEq
    rw [List.length_reverse, List.length_append, List.length_cons] at hEq
    omega
  have l2 : (e.reverse.length + 1 == (p ++ '.' :: e).length) = false := by
    rw [beq_eq_false_iff_ne]
    intro hEq
    rw [List.length_reverse, List.length_append, List.length_cons] at hEq
    omega
  simp only [extname]
  rw [hseg, hne2]
  simp only [Bool.false_eq_true, if_false]
  rw [htw, l1, l2]
  simp

/-- Claim C6, amended: the target format map, after `path.extname` and a
case-insensitive lowering of the extension, is `.woff → woff`,
`.woff2 → woff2`, `.sfnt → sfnt`, `.ttf → truetype`, and *everything
else* — including `.eot` and `.otf` — defaults to `woff2`. -/
theorem getTargetFormat_extension_mapping (p e : List Char) (hp : p ≠ [])
    (hps : ∀ c ∈ p, (c == '/') = false)
    (he : e ≠ []) (hed : ∀ c ∈ e, (c == '.') = false)
    (hes : ∀ c ∈ e, (c == '/') = false) :
    (toLowerList e = "woff".toList → getTargetFormat (p ++ '.' :: e) = TargetFormat.woff)
    ∧ (toLowerList e = "woff2".toList → getTargetFormat (p ++ '.' :: e) = TargetFormat.woff2)
    ∧ (toLowerList e = "sfnt".toList → getTargetFormat (p ++ '.' :: e) = TargetFormat.sfnt)
    ∧ (toLowerList e = "ttf".toList → getTargetFormat (p ++ '.' :: e) = TargetFormat.truetype)
    ∧ (toLowerList e ≠ "woff".toList → toLowerList e ≠ "woff2".toList →
       toLowerList e ≠ "sfnt".toList → toLowerList e ≠ "ttf".toList →
       getTargetFormat (p ++ '.' :: e) = TargetFormat.woff2) := by
  have hext := extname_of_stem_ext p e hp hps he hed hes
  have hdot : Char.toLower '.' = '.' := by decide
  have hlow : toLowerList (extname (p ++ '.' :: e)) = '.' :: toLowerList e := by
    rw [hext]
    simp [toLowerList, hdot]
  refine ⟨?_, ?_, ?_, ?_, ?_⟩
  · intro h1
    simp only [getTargetFormat]
    rw [hlow, h1]
    decide
  · intro h1
    simp only [getTargetFormat]
    rw [hlow, h1]
    decide
  · intro h1
    simp only [getTargetFormat]
    rw [hlow, h1]
    decide
  · intro h1
    simp only [getTargetFormat]
    rw [hlow, h1]
    decide
  · intro h1 h2 h3 h4
    have k1 : ('.' :: toLowerList e == ".woff".toList) = false := by
      rw [beq_eq_false_iff_ne]
      intro hEq
      apply h1
      have hEq2 : ('.' :: toLowerList e == '.' :: "woff".toList) = true := by
        rw [show ('.' :: "woff".toList : List Char) = ".woff".toList from by decide, hEq]
        exact beq_self_eq_true _
      exact cons_eq_of_beq_true hEq2
    have k2 : ('.' :: toLowerList e == ".woff2".toList) = false := by
      rw [beq_eq_false_iff_ne]
      intro hEq
      apply h2
      have hEq2 : ('.' :: toLowerList e == '.' :: "woff2".toList) = true := by
        rw [show ('.' :: "woff2".toList : List Char) = ".woff2".toList from by decide, hEq]
        exact beq_self_eq_true _
      exact cons_eq_of_beq_true hEq2
    have k3 : ('.' :: toLowerList e == ".sfnt".toList) = false := by
      rw [beq_eq_false_iff_ne]
      intro hEq
      apply h3
      have hEq2 : ('.' :: toLowerList e == '.' :: "sfnt".toList) = true := by
        rw [show ('.' :: "sfnt".toList : List Char) = ".sfnt".toList from by decide, hEq]
        exact beq_self_eq_true _
      exact cons_eq_of_beq_true hEq2
    have k4 : ('.' :: toLowerList e == ".ttf".toList) = false := by
      rw [beq_eq_false_iff_ne]
      intro hEq
      apply h4
      have hEq2 : ('.' :: toLowerList e == '.' :: "ttf".toList) = true := by
        rw [show ('.' :: "ttf".toList : List Char) = ".ttf".toList from by decide, hEq]
        exact beq_self_eq_true _
      exact cons_eq_of_beq_true hEq2
    simp only [getTargetFormat]
    rw [hlow, k1, k2, k3, k4]
    simp

/-- Witness for the extension mapping: an upper-case `.TTF` maps to
`truetype`, while `.EOT` falls to the `woff2` default. -/
theorem getTargetFormat_extension_mapping_witness :
    getTargetFormat ("font".toList ++ '.' :: "TTF".toList) = TargetFormat.truetype
    ∧ getTargetFormat ("font".toList ++ '.' :: "EOT".toList) = TargetFormat.woff2 :=
  ⟨(getTargetFormat_extension_mapping ("font".toList) ("TTF".toList)
      (by decide) (by decide) (by decide) (by decide) (by decide)).2.2.2.1 (by decide),
   (getTargetFormat_extension_mapping ("font".toList) ("EOT".toList)
      (by decide) (by decide) (by decide) (by decide) (by decide)).2.2.2.2
     (by decide) (by decide) (by decide) (by decide)⟩

theorem tailCapture_dotted (x ls ds : List Char) (hls : ls ≠ [])
    (hlsA : ∀ c ∈ ls, isLowerAlpha c = true)
    (hds : ds = [] ∨ ∃ d, ds = [d] ∧ isDigitCh d = true) :
    tailCapture (x ++ '.' :: (ls ++ ds)) = some (ls ++ ds) := by
  rcases hds with rfl | ⟨d, rfl, hd⟩
  · obtain ⟨c, t, hct⟩ := List.exists_cons_of_ne_nil
      (show ls.reverse ≠ [] by simpa using hls)
    have hc : isLowerAlpha c = true := by
      apply hlsA
      rw [← List.mem_reverse, hct]
      simp
    have hrev : (x ++ '.' :: (ls ++ [])).reverse = (c :: t) ++ '.' :: x.reverse := by
      rw [← hct]
      simp
    have htw : ((c :: t) ++ '.' :: x.reverse).takeWhile isLowerAlpha = c :: t := by
      apply takeWhile_all_append
      · intro y hy
        apply hlsA
        rw [← List.mem_reverse, hct]
        exact hy
      · decide
    simp only [tailCapture]
    rw [hrev]
    simp only [List.cons_append, hc, if_true]
    rw [← List.cons_append, htw, ← hct]
    simp
  · have hrev : (x ++ '.' :: (ls ++ [d])).reverse = d :: (ls.reverse ++ '.' :: x.reverse) := by
      simp
    have htw : (ls.reverse ++ '.' :: x.reverse).takeWhile isLowerAlpha = ls.reverse := by
      apply takeWhile_all_append
      · intro y hy
        exact hlsA y (List.mem_reverse.mp hy)
      · decide
    have hne : ls.reverse ≠ [] := by simpa using hls
    simp only [tailCapture]
    rw [hrev]
    simp [digit_not_lower hd, hd, htw, hne]

/-- Claim C7, amended: `getFileName` is a fixed pure function that does
not strip query strings or hash fragments, but it does collapse
differently-hashed filenames: for a dot-free, slash-free, newline-free
base name, any slash-free and line-terminator-free middle segment between
the first dot and a final extension of lowercase letters optionally
ending in one digit is replaced by nothing — both hashed copies normalize
to `base.ext`, hence to one identity key. (The line-terminator
restriction is forced by the regex: its lazy `.*?` cannot cross a line
terminator, so a newline in the middle segment leaves the name
uncollapsed.) -/
theorem getFileName_collapses_hash_segment
    (base m ls ds : List Char)
    (hbD : ∀ c ∈ base, (c == '.') = false)
    (hbS : ∀ c ∈ base, (c == '/') = false)
    (hbT : ∀ c ∈ base, isLineTerm c = false)
    (hmS : ∀ c ∈ m, (c == '/') = false)
    (hmT : ∀ c ∈ m, isLineTerm c = false)
    (hls : ls ≠ []) (hlsA : ∀ c ∈ ls, isLowerAlpha c = true)
    (hds : ds = [] ∨ ∃ d, ds = [d] ∧ isDigitCh d = true) :
    getFileName (base ++ '.' :: (m ++ '.' :: (ls ++ ds))) = base ++ '.' :: (ls ++ ds) := by
  have hallS : ∀ c ∈ base ++ '.' :: (m ++ '.' :: (ls ++ ds)), (c == '/') = false := by
    intro c hc
    simp only [List.mem_append, List.mem_cons] at hc
    rcases hc with h | h | h | h | h | h
    · exact hbS c h
    · subst h; decide
    · exact hmS c h
    · subst h; decide
    · exact lowerAlpha_ne_slash (hlsA c h)
    · rcases hds with rfl | ⟨d, rfl, hd⟩
      · simp at h
      · rw [List.mem_singleton] at h
        subst h
        exact digit_ne_slash hd
  have hseg : lastSegment (base ++ '.' :: (m ++ '.' :: (ls ++ ds)))
      = base ++ '.' :: (m ++ '.' :: (ls ++ ds)) := lastSegment_of_no_slash _ hallS
  have hstr : base ++ '.' :: (m ++ '.' :: (ls ++ ds))
      = (base ++ '.' :: m) ++ '.' :: (ls ++ ds) := by simp
  have hcap : tailCapture (base ++ '.' :: (m ++ '.' :: (ls ++ ds))) = some (ls ++ ds) := by
    rw [hstr]
    exact tailCapture_dotted _ _ _ hls hlsA hds
  -- the part of the basename before the capture
  have hfile : base ++ '.' :: (m ++ '.' :: (ls ++ ds))
      = (base ++ '.' :: (m ++ ['.'])) ++ (ls ++ ds) := by simp
  have hpre : (base ++ '.' :: (m ++ '.' :: (ls ++ ds))).take
      ((base ++ '.' :: (m ++ '.' :: (ls ++ ds))).length - (ls ++ ds).length)
      = base ++ '.' :: (m ++ ['.']) := by
    rw [hfile, List.length_append, Nat.add_sub_cancel]
    exact List.take_left _ _
  -- no line terminator occurs before the capture, so the viable zone is all of it
  have hpreT : ∀ c ∈ base ++ '.' :: (m ++ ['.']), isLineTerm c = false := by
    intro c hc
    simp only [List.mem_append, List.mem_cons] at hc
    rcases hc with h | h | h | h
    · exact hbT c h
    · subst h; decide
    · exact hmT c h
    · rcases h with rfl | h
      · decide
      · simp at h
  have hzone : (((base ++ '.' :: (m ++ ['.'])).reverse.takeWhile
        fun c => !(isLineTerm c)).reverse) = base ++ '.' :: (m ++ ['.']) := by
    rw [takeWhile_all _ _ fun c hc => by simp [hpreT c (List.mem_reverse.mp hc)]]
    exact List.reverse_reverse _
  have hcont : (base ++ '.' :: (m ++ ['.'])).contains '.' = true := contains_mid _ _ _
  have htw : ((base ++ '.' :: (m ++ ['.'])).takeWhile fun c => !(c == '.')) = base := by
    apply takeWhile_all_append
    · intro c hc
      simp [hbD c hc]
    · decide
  simp only [getFileName]
  rw [hseg, hcap]
  simp only [hpre, hzone, hcont, if_true]
  simp [htw]

/-- Witness for the hash-collapse theorem: `font.abc123.woff2` and
`font.zzz9.woff2` both normalize to `font.woff2`. -/
theorem getFileName_collapses_hash_segment_witness :
    getFileName ("font".toList ++ '.' :: ("abc123".toList ++ '.' :: ("woff".toList ++ ['2'])))
      = "font".toList ++ '.' :: ("woff".toList ++ ['2'])
    ∧ getFileName ("font".toList ++ '.' :: ("zzz9".toList ++ '.' :: ("woff".toList ++ ['2'])))
      = "font".toList ++ '.' :: ("woff".toList ++ ['2']) :=
  ⟨getFileName_collapses_hash_segment ("font".toList) ("abc123".toList) ("woff".toList) ['2']
     (by decide) (by decide) (by decide) (by decide) (by decide) (by decide) (by decide)
     (Or.inr ⟨'2', rfl, by decide⟩),
   getFileName_collapses_hash_segment ("font".toList) ("zzz9".toList) ("woff".toList) ['2']
     (by decide) (by decide) (by decide) (by decide) (by decide) (by decide) (by decide)
     (Or.inr ⟨'2', rfl, by decide⟩)⟩
